import Mathlib

set_option linter.unusedVariables false

/-!
Verification of the fediblockhole blocklist-sync tool
(`src/bin/fediblock_sync.py`).

The Python code manipulates loosely-typed dictionaries.  We embed a block
definition as a record of optional fields: `none` models a key that is
absent from the dictionary.  A comment value itself may be the Python value
`None` or a string, so comment fields are `Option (Option String)`:
the outer layer is key presence, the inner layer distinguishes Python
`None` (`none`) from a string (`some s`).  Python exceptions
(`KeyError`, `TypeError`, `NotImplementedError`) are modelled with
`Except PyErr`.  The `mergeplan` parameter is a Python string or `None`,
hence `Option String`.  Network transport (HTTP requests, JSON parsing,
OAuth) is an external collaborator; the responses a destination produces
are passed in as explicit data.
-/

/-- The relative severity levels of blocks (the keys of the `SEVERITY`
dict; the severity field of an entry, when present, is one of these). -/
inductive Severity where
  | noop
  | silence
  | suspend
deriving DecidableEq

/-- Dict `SEVERITY`: the relative severity levels of blocks. -/
def SEVERITY : Severity → Nat
  | Severity.noop => 0
  | Severity.silence => 1
  | Severity.suspend => 2

/-- Default for the reject_media setting for each severity level. -/
def REJECT_MEDIA_DEFAULT : Severity → Bool
  | Severity.noop => false
  | Severity.silence => true
  | Severity.suspend => true

/-- Default for the reject_reports setting for each severity level. -/
def REJECT_REPORTS_DEFAULT : Severity → Bool
  | Severity.noop => false
  | Severity.silence => true
  | Severity.suspend => true

/-- A block definition dictionary.  `domain` is the required key; every
other field is optional (`none` = key absent).  `id` is the remote
identifier carried by rows fetched from a destination instance. -/
structure Block where
  domain : String
  severity : Option Severity := none
  public_comment : Option (Option String) := none
  private_comment : Option (Option String) := none
  reject_media : Option Bool := none
  reject_reports : Option Bool := none
  obfuscate : Option Bool := none
  id : Option Nat := none
deriving DecidableEq

/-- Python exceptions that the merge code can raise. -/
inductive PyErr where
  | keyError
  | typeError
  | notImplemented
deriving DecidableEq

/-- One iteration of the comment-merging loop of `apply_mergeplan`
(lines 154-160) for a single key: if both dictionaries have the key and
the values differ and the incoming value is neither the empty string nor `None`, the
result is the newline join of `oldblock[key]` and `newblock[key]`; a missing key on
either side raises `KeyError`, which is caught (the value is left as the
copy of the old block); joining when the old value is Python `None`
raises an uncaught `TypeError`. -/
def merge_comment_key (oldv newv : Option (Option String)) :
    Except PyErr (Option (Option String)) :=
  match oldv, newv with
  | some ov, some nv =>
    if ov ≠ nv ∧ nv ≠ some "" ∧ nv ≠ none then
      match ov, nv with
      | some os, some ns => Except.ok (some (some (os ++ "\n" ++ ns)))
      | _, _ => Except.error PyErr.typeError
    else
      Except.ok (some ov)
  | _, _ => Except.ok oldv

/-- Lines 195-196 of `apply_mergeplan`: use the (post-merge) severity
level to set the rejections, unless defined in `newblock`.  Python
evaluates the severity-keyed `REJECT_MEDIA_DEFAULT` default eagerly, so a
missing severity raises `KeyError`. -/
def set_rejects (blockdata newblock : Block) : Except PyErr Block :=
  match blockdata.severity with
  | none => Except.error PyErr.keyError
  | some sev =>
    Except.ok { blockdata with
      reject_media := some (newblock.reject_media.getD (REJECT_MEDIA_DEFAULT sev)),
      reject_reports := some (newblock.reject_reports.getD (REJECT_REPORTS_DEFAULT sev)) }

/-- Function `apply_mergeplan(oldblock, newblock, mergeplan, include_private_comments)`:
merge two overlapping block definitions.  Starts from a copy of
`oldblock`, merges the comment fields, then resolves severity and
obfuscation according to the mergeplan (the check `mergeplan in [max, None]`
uses the max plan; the string "min" the min plan; anything else raises
`NotImplementedError`), and finally recomputes the reject flags from the
resulting severity when `newblock` does not pin them. -/
def apply_mergeplan (oldblock newblock : Block) (mergeplan : Option String)
    (include_private_comments : Bool) : Except PyErr Block :=
  match merge_comment_key oldblock.public_comment newblock.public_comment with
  | Except.error e => Except.error e
  | Except.ok pub =>
    match (if include_private_comments then
             merge_comment_key oldblock.private_comment newblock.private_comment
           else
             Except.ok oldblock.private_comment) with
    | Except.error e => Except.error e
    | Except.ok priv =>
      let blockdata := { oldblock with public_comment := pub, private_comment := priv }
      if mergeplan = some "max" ∨ mergeplan = none then
        match newblock.severity, oldblock.severity with
        | some ns, some os =>
          let blockdata :=
            if SEVERITY ns > SEVERITY os then { blockdata with severity := some ns }
            else blockdata
          let blockdata :=
            if newblock.obfuscate.getD false then { blockdata with obfuscate := some true }
            else blockdata
          set_rejects blockdata newblock
        | _, _ => Except.error PyErr.keyError
      else if mergeplan = some "min" then
        match newblock.severity, oldblock.severity with
        | some ns, some os =>
          let blockdata :=
            if SEVERITY ns < SEVERITY os then { blockdata with severity := some ns }
            else blockdata
          let blockdata :=
            if newblock.obfuscate.getD true then blockdata
            else { blockdata with obfuscate := some false }
          set_rejects blockdata newblock
        | _, _ => Except.error PyErr.keyError
      else
        Except.error PyErr.notImplemented

/-- The insert path of `merge_blocklists` (lines 116-127): the first time
a domain is seen, build a fresh entry with defaults.  Line 127
(the subscripted `blockdata` private_comment line with its `newblock.get` right-hand side) is
an annotated statement, not an assignment, so the fresh entry never
carries a `private_comment` key. -/
def new_block_entry (newblock : Block) (include_private_comments : Bool) : Block :=
  let sev := newblock.severity.getD Severity.silence
  { domain := newblock.domain
    severity := some sev
    public_comment := some (newblock.public_comment.getD (some ""))
    obfuscate := some (newblock.obfuscate.getD true)
    reject_media := some (newblock.reject_media.getD (REJECT_MEDIA_DEFAULT sev))
    reject_reports := some (newblock.reject_reports.getD (REJECT_REPORTS_DEFAULT sev))
    private_comment := none
    id := none }

/-- The accumulating merged mapping, keyed by domain. -/
abbrev Merged := String → Option Block

/-- The body of the inner loop of `merge_blocklists` (lines 109-131):
merge one entry into the accumulating dictionary. -/
def merge_step (mergeplan : Option String) (include_private_comments : Bool)
    (merged : Merged) (newblock : Block) : Except PyErr Merged :=
  match (match merged newblock.domain with
         | some oldblock =>
             apply_mergeplan oldblock newblock mergeplan include_private_comments
         | none => Except.ok (new_block_entry newblock include_private_comments)) with
  | Except.error e => Except.error e
  | Except.ok blockdata =>
      Except.ok (fun d => if d = newblock.domain then some blockdata else merged d)

/-- The inner loop of `merge_blocklists` over the entries of one source
list. -/
def merge_list (mergeplan : Option String) (include_private_comments : Bool) :
    List Block → Merged → Except PyErr Merged
  | [], merged => Except.ok merged
  | newblock :: rest, merged =>
    match merge_step mergeplan include_private_comments merged newblock with
    | Except.error e => Except.error e
    | Except.ok merged2 => merge_list mergeplan include_private_comments rest merged2

/-- The outer loop of `merge_blocklists` over the `blocklists` dict
(key, list) items; the key is only used for logging. -/
def merge_lists_fold (mergeplan : Option String) (include_private_comments : Bool) :
    List (String × List Block) → Merged → Except PyErr Merged
  | [], merged => Except.ok merged
  | (_, blist) :: rest, merged =>
    match merge_list mergeplan include_private_comments blist merged with
    | Except.error e => Except.error e
    | Except.ok merged2 => merge_lists_fold mergeplan include_private_comments rest merged2

/-- Function `merge_blocklists(blocklists, mergeplan, include_private_comments)`:
merge the fetched blocklists into a single mapping keyed by domain. -/
def merge_blocklists (blocklists : List (String × List Block))
    (mergeplan : Option String) (include_private_comments : Bool) :
    Except PyErr Merged :=
  merge_lists_fold mergeplan include_private_comments blocklists (fun _ => none)

/-- A write operation decided by `push_blocklist`: create a new domain
block (`add_block`) or update an existing one (`update_known_block`). -/
inductive Op where
  | add (blockdata : Block)
  | update (blockdata : Block)
deriving DecidableEq

/-- The domain a write operation is about. -/
def opDomain : Op → String
  | Op.add b => b.domain
  | Op.update b => b.domain

/-- Side effects performed against the destination: an HTTP write call,
or the `time.sleep(1)` cool-down after a successful write. -/
inductive Effect where
  | write (op : Op)
  | sleep
deriving DecidableEq

/-- One comparison of the `change_needed` loop of `push_blocklist`
(lines 331-343): a difference is detected only when both dictionaries
have the key and the values are unequal; a missing key raises `KeyError`,
which is caught and the key is skipped. -/
def key_differs {α : Type} [DecidableEq α] (oldv newv : Option α) : Bool :=
  match oldv, newv with
  | some ov, some nv => decide (ov ≠ nv)
  | _, _ => false

/-- The `change_needed` flag of `push_blocklist`: whether any key of the
compared keylist (severity, public_comment, reject_media, reject_reports,
obfuscate, plus private_comment when enabled) differs. -/
def change_needed_check (oldblock newblock : Block)
    (include_private_comments : Bool) : Bool :=
  key_differs oldblock.severity newblock.severity ||
  key_differs oldblock.public_comment newblock.public_comment ||
  key_differs oldblock.reject_media newblock.reject_media ||
  key_differs oldblock.reject_reports newblock.reject_reports ||
  key_differs oldblock.obfuscate newblock.obfuscate ||
  (include_private_comments && key_differs oldblock.private_comment newblock.private_comment)

/-- Statement `blockdata = oldblock.copy(); blockdata.update(newblock)`
(lines 347-348): every key present in `newblock` overrides the value
from `oldblock`; keys absent from `newblock` keep the old value. -/
def dict_update (oldblock newblock : Block) : Block :=
  { domain := newblock.domain
    severity := newblock.severity.or oldblock.severity
    public_comment := newblock.public_comment.or oldblock.public_comment
    private_comment := newblock.private_comment.or oldblock.private_comment
    reject_media := newblock.reject_media.or oldblock.reject_media
    reject_reports := newblock.reject_reports.or oldblock.reject_reports
    obfuscate := newblock.obfuscate.or oldblock.obfuscate
    id := newblock.id.or oldblock.id }

/-- The `Add` payload of `push_blocklist` (lines 363-372): a fresh block
with its own defaults (severity silence, empty comments, reject flags
false, obfuscate false). -/
def add_block_entry (newblock : Block) : Block :=
  { domain := newblock.domain
    severity := some (newblock.severity.getD Severity.silence)
    public_comment := some (newblock.public_comment.getD (some ""))
    private_comment := some (newblock.private_comment.getD (some ""))
    reject_media := some (newblock.reject_media.getD false)
    reject_reports := some (newblock.reject_reports.getD false)
    obfuscate := some (newblock.obfuscate.getD false)
    id := none }

/-- Comprehension `knownblocks` of `push_blocklist`
(line 310): the existing blocks of the destination keyed by domain, later
rows overriding earlier ones. -/
def knownblocks_of (serverblocks : List Block) : String → Option Block :=
  serverblocks.foldl
    (fun m row => fun d => if d = row.domain then some row else m d)
    (fun _ => none)

/-- The body of the `for newblock in blocklist` loop of `push_blocklist`
(lines 312-379).  Returns the list of decided write operations (which
the code reports in both modes) and the list of side effects actually
performed against the destination (empty in dry-run). -/
def push_entry (knownblocks : String → Option Block) (dryrun : Bool)
    (include_private_comments : Bool) (newblock : Block) :
    List Op × List Effect :=
  match knownblocks newblock.domain with
  | some oldblock =>
    if change_needed_check oldblock newblock include_private_comments then
      let blockdata := dict_update oldblock newblock
      ([Op.update blockdata],
       if dryrun then [] else [Effect.write (Op.update blockdata), Effect.sleep])
    else
      ([], [])
  | none =>
    let blockdata := add_block_entry newblock
    ([Op.add blockdata],
     if dryrun then [] else [Effect.write (Op.add blockdata), Effect.sleep])

/-- The `for newblock in blocklist` loop of `push_blocklist`,
concatenating decisions and effects in order. -/
def push_loop (knownblocks : String → Option Block) (dryrun : Bool)
    (include_private_comments : Bool) : List Block → List Op × List Effect
  | [] => ([], [])
  | newblock :: rest =>
    let step := push_entry knownblocks dryrun include_private_comments newblock
    let restResult := push_loop knownblocks dryrun include_private_comments rest
    (step.1 ++ restResult.1, step.2 ++ restResult.2)

/-- Function `push_blocklist(token, host, blocklist, dryrun, include_private_comments)`:
reconcile the merged blocklist against the existing state of the destination.
The OAuth token and host select the destination; the rows the
API of the destination returned (`serverblocks = fetch_instance_blocklist(...)`)
are passed in explicitly here since HTTP transport is external. -/
def push_blocklist (serverblocks blocklist : List Block) (dryrun : Bool)
    (include_private_comments : Bool) : List Op × List Effect :=
  push_loop (knownblocks_of serverblocks) dryrun include_private_comments blocklist

/-- Helper for `py_split`: scan the character list left to right,
breaking at each non-overlapping occurrence of the separator.  The fuel
argument only makes the recursion structural; it is called with more
fuel than characters, so the fuel-exhausted case is never reached. -/
def py_split_aux (sep : List Char) : Nat → List Char → List Char → List (List Char)
  | _, [], acc => [acc.reverse]
  | 0, s, acc => [acc.reverse ++ s]
  | fuel + 1, c :: rest, acc =>
    if sep.isPrefixOf (c :: rest) then
      acc.reverse :: py_split_aux sep fuel ((c :: rest).drop sep.length) []
    else
      py_split_aux sep fuel rest (c :: acc)

/-- Python `s.split(sep)` for a non-empty separator `sep`: the list of
fragments of `s` between non-overlapping occurrences of `sep`
(splitting the empty string yields a list of one empty fragment, and a trailing separator yields a trailing
empty fragment, as in Python). -/
def py_split (s sep : String) : List String :=
  (py_split_aux sep.data (s.data.length + 1) s.data []).map (fun cs => String.mk cs)

/-- One HTTP response page seen by `fetch_instance_blocklist`:
its status code, its parsed body (a list of block rows), and its `Link`
header. -/
structure PageResponse where
  status_code : Nat
  content : List Block
  link : String
deriving DecidableEq

/-- Failures of `fetch_instance_blocklist`: the `ValueError` raised for a
non-200 response (carrying the status and body of the response), the
`ValueError` raised when unpacking the two-way split of the next cursor into two names
fails, and a model artifact for a run that asks for more pages than the
given response sequence provides. -/
inductive FetchError where
  | remoteFetchError (status_code : Nat) (content : List Block)
  | valueError
  | outOfResponses
deriving DecidableEq

/-- The `while link` loop of `fetch_instance_blocklist` (lines 218-239):
raise on a non-200 response; extend the accumulated rows with the page
body; split the `Link` header on comma-blank; if it does not have exactly two
parts, stop and return what was accumulated; otherwise unpack
the next cursor on semicolon-blank (exactly two parts or `ValueError`) and fetch the next
page. -/
def fetch_loop : List PageResponse → List Block → Except FetchError (List Block)
  | [], _ => Except.error FetchError.outOfResponses
  | response :: rest, domain_blocks =>
    if response.status_code ≠ 200 then
      Except.error (FetchError.remoteFetchError response.status_code response.content)
    else
      let blocks := domain_blocks ++ response.content
      match py_split response.link ", " with
      | [next, _prev] =>
        match py_split next "; " with
        | [_urlstring, _rel] => fetch_loop rest blocks
        | _ => Except.error FetchError.valueError
      | _ => Except.ok blocks

/-- Function `fetch_instance_blocklist(token, host)`: fetch the existing block
list from a server, page by page.  The pages the server would answer are
passed in explicitly. -/
def fetch_instance_blocklist (pages : List PageResponse) :
    Except FetchError (List Block) :=
  fetch_loop pages []

/-- All entries of all source lists, in processing order. -/
def flat_blocklists (blocklists : List (String × List Block)) : List Block :=
  blocklists.flatMap (fun p => p.2)

/-- The entries of a list that are about one domain. -/
def entries_for (d : String) (l : List Block) : List Block :=
  l.filter (fun e => e.domain == d)

/-- The explicit severities carried by a list of entries. -/
def sev_list (l : List Block) : List Severity :=
  l.filterMap (fun e => e.severity)

/-- The write operations of an operation list that are about one domain. -/
def ops_for (d : String) (ops : List Op) : List Op :=
  ops.filter (fun o => opDomain o == d)

/-- Two dictionary fields hold differing values: both keys are present
and the values are unequal (comparison by value, not by presence). -/
def BothPresentDiffer {α : Type} (oldv newv : Option α) : Prop :=
  ∃ ov nv, oldv = some ov ∧ newv = some nv ∧ ov ≠ nv

/-- Some field of the compared set {severity, public_comment,
reject_media, reject_reports, obfuscate} (plus private_comment when
private comments are enabled) holds differing values in the two
entries. -/
def ComparedDiffer (oldblock newblock : Block)
    (include_private_comments : Bool) : Prop :=
  BothPresentDiffer oldblock.severity newblock.severity ∨
  BothPresentDiffer oldblock.public_comment newblock.public_comment ∨
  BothPresentDiffer oldblock.reject_media newblock.reject_media ∨
  BothPresentDiffer oldblock.reject_reports newblock.reject_reports ∨
  BothPresentDiffer oldblock.obfuscate newblock.obfuscate ∨
  (include_private_comments = true ∧
    BothPresentDiffer oldblock.private_comment newblock.private_comment)

/-! Concrete block definitions used to evaluate the theorems below on
explicit inputs. -/

/-- A silence block for `bad.example`. -/
def blkSilence : Block := { domain := "bad.example", severity := some Severity.silence }

/-- A suspend block for `bad.example`. -/
def blkSuspend : Block := { domain := "bad.example", severity := some Severity.suspend }

/-- Two one-entry sources disagreeing on the severity of `bad.example`. -/
def demoBls : List (String × List Block) := [("listA", [blkSilence]), ("listB", [blkSuspend])]

/-- An existing block with explicit comment and flags. -/
def c5old : Block :=
  { domain := "a.example", severity := some Severity.silence,
    public_comment := some (some "why"), reject_media := some false,
    reject_reports := some false, obfuscate := some false }

/-- An incoming block that only raises the severity. -/
def c5new : Block := { domain := "a.example", severity := some Severity.suspend }

/-- What merging `c5new` into `c5old` under the max plan produces. -/
def c5res : Block :=
  { domain := "a.example", severity := some Severity.suspend,
    public_comment := some (some "why"), private_comment := none,
    reject_media := some true, reject_reports := some true,
    obfuscate := some false, id := none }

/-- An existing block whose public comment is present with the Python
value `None`. -/
def c7old : Block :=
  { domain := "b.example", severity := some Severity.silence,
    public_comment := some none }

/-- An incoming block with a differing, non-empty public comment. -/
def c7new : Block :=
  { domain := "b.example", severity := some Severity.silence,
    public_comment := some (some "spam") }

/-- An existing block with differing comment and explicit flags. -/
def c7aold : Block :=
  { domain := "h.example", severity := some Severity.silence,
    public_comment := some (some "first"), reject_media := some true,
    reject_reports := some true, obfuscate := some false }

/-- An incoming block with a differing, non-empty public comment. -/
def c7anew : Block :=
  { domain := "h.example", severity := some Severity.silence,
    public_comment := some (some "second") }

/-- What merging `c7anew` into `c7aold` under the max plan produces. -/
def c7ares : Block :=
  { domain := "h.example", severity := some Severity.silence,
    public_comment := some (some "first\nsecond"), private_comment := none,
    reject_media := some true, reject_reports := some true,
    obfuscate := some false, id := none }

/-- An existing block with explicit (false) reject flags at noop. -/
def c4old : Block :=
  { domain := "c.example", severity := some Severity.noop,
    public_comment := some (some ""), reject_media := some false,
    reject_reports := some false }

/-- An incoming block that raises the severity and omits the flags. -/
def c4new : Block := { domain := "c.example", severity := some Severity.suspend }

/-- What merging `c4new` into `c4old` under the max plan produces: the
old explicit reject flags are overwritten by the suspend defaults. -/
def c4res : Block :=
  { domain := "c.example", severity := some Severity.suspend,
    public_comment := some (some ""), private_comment := none,
    reject_media := some true, reject_reports := some true,
    obfuscate := none, id := none }

/-- A server row for `d.example` with remote id 42. -/
def srvOld : Block :=
  { domain := "d.example", severity := some Severity.silence,
    public_comment := some (some ""), reject_media := some true,
    reject_reports := some true, obfuscate := some false, id := some 42 }

/-- A merged entry for `d.example` that raises the severity. -/
def mrgNew : Block :=
  { domain := "d.example", severity := some Severity.suspend,
    public_comment := some (some ""), reject_media := some true,
    reject_reports := some true, obfuscate := some false }

/-- A merged entry for a domain the destination does not know, with all
optional fields absent. -/
def mrgFresh : Block := { domain := "e.example" }

/-- Two entries for `f.example`: the first wants obfuscation, the second
does not. -/
def demoObf : List (String × List Block) :=
  [("listO",
    [ { domain := "f.example", severity := some Severity.silence, obfuscate := some true },
      { domain := "f.example", severity := some Severity.silence, obfuscate := some false } ])]

/-- A source entry carrying a private comment. -/
def blkPriv : Block :=
  { domain := "g.example", severity := some Severity.silence,
    private_comment := some (some "secret") }

/-- A one-source blocklist whose only entry carries a private comment. -/
def demoPrivBls : List (String × List Block) := [("listP", [blkPriv])]

/-- A failing page response. -/
def pageBad : PageResponse :=
  { status_code := 403, content := [], link := "" }

/-- A successful page response whose Link header does not split into the
two-part (next, previous) shape. -/
def pageLast : PageResponse :=
  { status_code := 200, content := [blkSilence], link := "<https://x/next>; rel too short" }

/-! Helper lemmas about the comment merge and `apply_mergeplan`. -/

/-- An absent, empty, or Python-`None` incoming comment leaves the
existing comment value unchanged. -/
theorem merge_comment_key_noop (oldv newv : Option (Option String))
    (hn : newv = none ∨ newv = some none ∨ newv = some (some "")) :
    merge_comment_key oldv newv = Except.ok oldv := by
  rcases hn with hn | hn | hn <;> subst hn <;> cases oldv <;>
    simp [merge_comment_key]

/-- When both comment values are present strings that differ and the
incoming one is non-empty, the merge is the newline join. -/
theorem merge_comment_key_concat (os ns : String) (hne : os ≠ ns) (hns : ns ≠ "") :
    merge_comment_key (some (some os)) (some (some ns)) =
      Except.ok (some (some (os ++ "\n" ++ ns))) := by
  unfold merge_comment_key
  dsimp only
  rw [if_pos ⟨by simpa using hne, by simpa using hns, by simp⟩]

/-- A comment key absent from the old block is never added: the
`KeyError` on `oldblock[key]` is caught and the key skipped. -/
theorem merge_comment_key_old_absent (newv : Option (Option String)) :
    merge_comment_key none newv = Except.ok none := by
  cases newv <;> rfl

/-- Shape of a successful `set_rejects`: the block is unchanged except
that both reject flags are set from the incoming values or the
severity-level defaults. -/
theorem set_rejects_ok (bd nb b : Block) (h : set_rejects bd nb = Except.ok b) :
    ∃ sev, bd.severity = some sev ∧
      b = { bd with
            reject_media := some (nb.reject_media.getD (REJECT_MEDIA_DEFAULT sev)),
            reject_reports := some (nb.reject_reports.getD (REJECT_REPORTS_DEFAULT sev)) } := by
  unfold set_rejects at h
  split at h
  · exact Except.noConfusion h
  · rename_i sev hsev
    refine ⟨sev, hsev, ?_⟩
    injection h with h2
    exact h2.symm

/-- Shape of a successful `apply_mergeplan`: the comment merges
succeeded, both severities were present, and the result is
`set_rejects` applied to the copied-and-updated block, whose severity
and obfuscation are determined by the mergeplan. -/
theorem apply_mergeplan_ok_shape (oldblock newblock : Block)
    (mergeplan : Option String) (ipc : Bool) (b : Block)
    (h : apply_mergeplan oldblock newblock mergeplan ipc = Except.ok b) :
    ∃ pub priv ns os bd,
      merge_comment_key oldblock.public_comment newblock.public_comment = Except.ok pub ∧
      (if ipc then merge_comment_key oldblock.private_comment newblock.private_comment
       else Except.ok oldblock.private_comment) = Except.ok priv ∧
      newblock.severity = some ns ∧ oldblock.severity = some os ∧
      set_rejects bd newblock = Except.ok b ∧
      bd.public_comment = pub ∧ bd.private_comment = priv ∧
      bd.domain = oldblock.domain ∧ bd.id = oldblock.id ∧
      ((mergeplan = some "max" ∨ mergeplan = none) →
        bd.severity = some (if SEVERITY ns > SEVERITY os then ns else os) ∧
        bd.obfuscate = (if newblock.obfuscate.getD false then some true else oldblock.obfuscate)) ∧
      (mergeplan = some "min" →
        bd.severity = some (if SEVERITY ns < SEVERITY os then ns else os) ∧
        bd.obfuscate = (if newblock.obfuscate.getD true then oldblock.obfuscate else some false)) := by
  unfold apply_mergeplan at h
  split at h
  · exact Except.noConfusion h
  rename_i pub hpub
  split at h
  · exact Except.noConfusion h
  rename_i priv hpriv
  dsimp only at h
  split at h
  · rename_i hmax
    split at h
    · rename_i ns os hns hos
      split at h <;> split at h <;> rename_i h1 h2 <;>
        exact ⟨pub, priv, ns, os, _, hpub, hpriv, hns, hos, h, rfl, rfl, rfl, rfl,
          fun _ => ⟨by simp [h1, h2, hos], by simp [h1, h2]⟩,
          fun hmin => by
            subst hmin
            rcases hmax with hc | hc <;> exact absurd hc (by decide)⟩
    · exact Except.noConfusion h
  · rename_i hnotmax
    split at h
    · rename_i hmin
      split at h
      · rename_i ns os hns hos
        split at h <;> split at h <;> rename_i h1 h2 <;>
          exact ⟨pub, priv, ns, os, _, hpub, hpriv, hns, hos, h, rfl, rfl, rfl, rfl,
            fun hmax2 => absurd hmax2 hnotmax,
            fun _ => ⟨by simp [h1, h2, hos], by simp [h1, h2]⟩⟩
      · exact Except.noConfusion h
    · exact Except.noConfusion h

/-- Field-level description of a successful `apply_mergeplan`. -/
theorem apply_mergeplan_ok_full (oldblock newblock : Block)
    (mergeplan : Option String) (ipc : Bool) (b : Block)
    (h : apply_mergeplan oldblock newblock mergeplan ipc = Except.ok b) :
    ∃ pub priv,
      merge_comment_key oldblock.public_comment newblock.public_comment = Except.ok pub ∧
      (if ipc then merge_comment_key oldblock.private_comment newblock.private_comment
       else Except.ok oldblock.private_comment) = Except.ok priv ∧
      b.public_comment = pub ∧ b.private_comment = priv ∧
      b.domain = oldblock.domain ∧ b.id = oldblock.id ∧
      (∃ ns os, newblock.severity = some ns ∧ oldblock.severity = some os ∧
        ((mergeplan = some "max" ∨ mergeplan = none) →
          b.severity = some (if SEVERITY ns > SEVERITY os then ns else os) ∧
          b.obfuscate = (if newblock.obfuscate.getD false then some true else oldblock.obfuscate)) ∧
        (mergeplan = some "min" →
          b.severity = some (if SEVERITY ns < SEVERITY os then ns else os) ∧
          b.obfuscate = (if newblock.obfuscate.getD true then oldblock.obfuscate else some false))) ∧
      (∃ sev, b.severity = some sev ∧
        b.reject_media = some (newblock.reject_media.getD (REJECT_MEDIA_DEFAULT sev)) ∧
        b.reject_reports = some (newblock.reject_reports.getD (REJECT_REPORTS_DEFAULT sev))) := by
  obtain ⟨pub, priv, ns, os, bd, hpub, hpriv, hns, hos, hsr, hbpub, hbpriv, hbdom, hbid,
    hmx, hmn⟩ := apply_mergeplan_ok_shape oldblock newblock mergeplan ipc b h
  obtain ⟨sev, hsev, hb⟩ := set_rejects_ok bd newblock b hsr
  subst hb
  refine ⟨pub, priv, hpub, hpriv, hbpub, hbpriv, hbdom, hbid,
    ⟨ns, os, hns, hos, fun hc => ?_, fun hc => ?_⟩, ⟨sev, hsev, rfl, rfl⟩⟩
  · exact hmx hc
  · exact hmn hc

/-! Plumbing lemmas about the merge loop. -/

/-- A merge step only touches the entry under the domain of the processed block. -/
theorem merge_step_frame (mergeplan : Option String) (ipc : Bool)
    (m : Merged) (nb : Block) (m2 : Merged)
    (h : merge_step mergeplan ipc m nb = Except.ok m2)
    (d : String) (hd : d ≠ nb.domain) : m2 d = m d := by
  unfold merge_step at h
  split at h
  · exact Except.noConfusion h
  · injection h with h2
    rw [← h2]
    exact if_neg hd

/-- What a merge step stores under the domain of the processed block. -/
theorem merge_step_domain (mergeplan : Option String) (ipc : Bool)
    (m : Merged) (nb : Block) (m2 : Merged)
    (h : merge_step mergeplan ipc m nb = Except.ok m2) :
    (m nb.domain = none → m2 nb.domain = some (new_block_entry nb ipc)) ∧
    (∀ old, m nb.domain = some old →
      ∃ b, apply_mergeplan old nb mergeplan ipc = Except.ok b ∧ m2 nb.domain = some b) := by
  unfold merge_step at h
  split at h
  · exact Except.noConfusion h
  · rename_i blockdata heq
    injection h with h2
    rw [← h2]
    split at heq
    · rename_i old hm
      refine ⟨fun h0 => ?_, fun old2 hold => ?_⟩
      · rw [hm] at h0; exact Option.noConfusion h0
      · rw [hm] at hold
        injection hold with hold2
        subst hold2
        exact ⟨blockdata, heq, by simp⟩
    · rename_i hm
      refine ⟨fun _ => ?_, fun old2 hold => ?_⟩
      · injection heq with heq2
        simp [← heq2]
      · rw [hm] at hold; exact Option.noConfusion hold

/-- Destructuring a successful merge of a cons list. -/
theorem merge_list_cons_ok (mergeplan : Option String) (ipc : Bool)
    (nb : Block) (rest : List Block) (m mf : Merged)
    (h : merge_list mergeplan ipc (nb :: rest) m = Except.ok mf) :
    ∃ m2, merge_step mergeplan ipc m nb = Except.ok m2 ∧
      merge_list mergeplan ipc rest m2 = Except.ok mf := by
  unfold merge_list at h
  split at h
  · exact Except.noConfusion h
  · rename_i m2 heq
    exact ⟨m2, heq, h⟩

/-- Merging a concatenation is merging the pieces in sequence. -/
theorem merge_list_append (mergeplan : Option String) (ipc : Bool)
    (l1 l2 : List Block) : ∀ m : Merged,
    merge_list mergeplan ipc (l1 ++ l2) m =
      (match merge_list mergeplan ipc l1 m with
       | Except.error e => Except.error e
       | Except.ok m2 => merge_list mergeplan ipc l2 m2) := by
  induction l1 with
  | nil => intro m; rfl
  | cons nb rest ih =>
    intro m
    show merge_list mergeplan ipc (nb :: (rest ++ l2)) m = _
    cases hstep : merge_step mergeplan ipc m nb with
    | error e => simp [merge_list, hstep]
    | ok m2 =>
      simp only [merge_list, hstep]
      exact ih m2

/-- Unfolding: `merge_blocklists` is the merge of the flattened entry sequence into
an initially empty mapping. -/
theorem merge_blocklists_eq_flat (blocklists : List (String × List Block))
    (mergeplan : Option String) (ipc : Bool) :
    merge_blocklists blocklists mergeplan ipc =
      merge_list mergeplan ipc (flat_blocklists blocklists) (fun _ => none) := by
  unfold merge_blocklists
  generalize (fun _ => none : Merged) = m0
  induction blocklists generalizing m0 with
  | nil => rfl
  | cons p rest ih =>
    obtain ⟨k, blist⟩ := p
    show merge_lists_fold mergeplan ipc ((k, blist) :: rest) m0 = _
    unfold merge_lists_fold
    have hflat : flat_blocklists ((k, blist) :: rest) = blist ++ flat_blocklists rest := by
      simp [flat_blocklists]
    rw [hflat, merge_list_append]
    cases hb : merge_list mergeplan ipc blist m0
    · rfl
    · exact ih _

theorem merge_list_sev_max (ipc : Bool) (mergeplan : Option String)
    (hmp : mergeplan = some "max" ∨ mergeplan = none) :
    ∀ (l : List Block) (m mf : Merged),
      merge_list mergeplan ipc l m = Except.ok mf →
      ∀ d : String,
        (∀ e ∈ l, e.domain = d → (e.severity).isSome = true) →
        ((∀ b0 s0, m d = some b0 → b0.severity = some s0 →
           ∃ b s, mf d = some b ∧ b.severity = some s ∧
             (s = s0 ∨ s ∈ sev_list (entries_for d l)) ∧
             SEVERITY s0 ≤ SEVERITY s ∧
             (∀ t ∈ sev_list (entries_for d l), SEVERITY t ≤ SEVERITY s)) ∧
         (m d = none → entries_for d l = [] → mf d = none) ∧
         (m d = none → entries_for d l ≠ [] →
           ∃ b s, mf d = some b ∧ b.severity = some s ∧
             s ∈ sev_list (entries_for d l) ∧
             (∀ t ∈ sev_list (entries_for d l), SEVERITY t ≤ SEVERITY s))) := by
  intro l
  induction l with
  | nil =>
    intro m mf h d hall
    simp only [merge_list, Except.ok.injEq] at h
    subst h
    refine ⟨fun b0 s0 hm hs =>
        ⟨b0, s0, hm, hs, Or.inl rfl, Nat.le_refl _, by simp [entries_for, sev_list]⟩,
      fun hm _ => hm, fun hm hne => absurd rfl hne⟩
  | cons nb rest ih =>
    intro m mf h d hall
    obtain ⟨m2, hstep, hrest⟩ := merge_list_cons_ok _ _ _ _ _ _ h
    obtain ⟨p1, p2, p3⟩ := ih m2 mf hrest d
      (fun e he hd2 => hall e (List.mem_cons_of_mem _ he) hd2)
    by_cases hdom : nb.domain = d
    · -- the processed entry is about the tracked domain
      have hsome := hall nb (List.mem_cons_self _ _) hdom
      obtain ⟨se, hse⟩ := Option.isSome_iff_exists.mp hsome
      have hbeq : (nb.domain == d) = true := by simp [hdom]
      have hent : entries_for d (nb :: rest) = nb :: entries_for d rest := by
        simp [entries_for, List.filter_cons, hbeq]
      have hsevl : sev_list (nb :: entries_for d rest) = se :: sev_list (entries_for d rest) := by
        simp [sev_list, List.filterMap_cons, hse]
      obtain ⟨hins, hmerge⟩ := merge_step_domain _ _ _ _ _ hstep
      rw [hdom] at hins hmerge
      refine ⟨fun b0 s0 hm hs => ?_, fun hm h0 => ?_, fun hm hne => ?_⟩
      · obtain ⟨b1, happ, hm2⟩ := hmerge b0 hm
        obtain ⟨pub, priv, _, _, _, _, _, _, ⟨ns, os, hns, hos, hmaxc, _⟩, _⟩ :=
          apply_mergeplan_ok_full b0 nb mergeplan ipc b1 happ
        have hnse : ns = se := by rw [hse] at hns; injection hns with h2; exact h2.symm
        have hose : os = s0 := by rw [hs] at hos; injection hos with h2; exact h2.symm
        obtain ⟨hb1sev, _⟩ := hmaxc hmp
        rw [hnse, hose] at hb1sev
        obtain ⟨b, s, hmf, hbs, hor, hle, hbound⟩ :=
          p1 b1 (if SEVERITY se > SEVERITY s0 then se else s0) hm2 hb1sev
        rw [hent, hsevl]
        refine ⟨b, s, hmf, hbs, ?_, ?_, ?_⟩
        · rcases hor with rfl | hmem
          · by_cases hgt : SEVERITY se > SEVERITY s0
            · rw [if_pos hgt]; exact Or.inr (List.mem_cons_self _ _)
            · rw [if_neg hgt]; exact Or.inl rfl
          · exact Or.inr (List.mem_cons_of_mem _ hmem)
        · refine Nat.le_trans ?_ hle
          by_cases hgt : SEVERITY se > SEVERITY s0
          · rw [if_pos hgt]; exact Nat.le_of_lt hgt
          · rw [if_neg hgt]
        · intro t ht
          rcases List.mem_cons.mp ht with rfl | htmem
          · refine Nat.le_trans ?_ hle
            by_cases hgt : SEVERITY t > SEVERITY s0
            · rw [if_pos hgt]
            · rw [if_neg hgt]; exact Nat.le_of_not_lt hgt
          · exact hbound t htmem
      · rw [hent] at h0
        exact List.noConfusion h0
      · have hm2 : m2 d = some (new_block_entry nb ipc) := hins hm
        have hsev2 : (new_block_entry nb ipc).severity = some se := by
          simp [new_block_entry, hse]
        obtain ⟨b, s, hmf, hbs, hor, hle, hbound⟩ :=
          p1 (new_block_entry nb ipc) se hm2 hsev2
        rw [hent, hsevl]
        refine ⟨b, s, hmf, hbs, ?_, ?_⟩
        · rcases hor with rfl | hmem
          · exact List.mem_cons_self _ _
          · exact List.mem_cons_of_mem _ hmem
        · intro t ht
          rcases List.mem_cons.mp ht with rfl | htmem
          · exact hle
          · exact hbound t htmem
    · -- the processed entry is about another domain
      have hframe : m2 d = m d :=
        merge_step_frame _ _ _ _ _ hstep d (fun hdd => hdom hdd.symm)
      have hbeq : (nb.domain == d) = false := by
        simp [hdom]
      have hent : entries_for d (nb :: rest) = entries_for d rest := by
        simp [entries_for, List.filter_cons, hbeq]
      rw [hent]
      exact ⟨fun b0 s0 hm hs => p1 b0 s0 (hframe.trans hm) hs,
        fun hm h0 => p2 (hframe.trans hm) h0,
        fun hm hne => p3 (hframe.trans hm) hne⟩

theorem merge_list_sev_min (ipc : Bool) (mergeplan : Option String)
    (hmp : mergeplan = some "min") :
    ∀ (l : List Block) (m mf : Merged),
      merge_list mergeplan ipc l m = Except.ok mf →
      ∀ d : String,
        (∀ e ∈ l, e.domain = d → (e.severity).isSome = true) →
        ((∀ b0 s0, m d = some b0 → b0.severity = some s0 →
           ∃ b s, mf d = some b ∧ b.severity = some s ∧
             (s = s0 ∨ s ∈ sev_list (entries_for d l)) ∧
             SEVERITY s ≤ SEVERITY s0 ∧
             (∀ t ∈ sev_list (entries_for d l), SEVERITY s ≤ SEVERITY t)) ∧
         (m d = none → entries_for d l = [] → mf d = none) ∧
         (m d = none → entries_for d l ≠ [] →
           ∃ b s, mf d = some b ∧ b.severity = some s ∧
             s ∈ sev_list (entries_for d l) ∧
             (∀ t ∈ sev_list (entries_for d l), SEVERITY s ≤ SEVERITY t))) := by
  intro l
  induction l with
  | nil =>
    intro m mf h d hall
    simp only [merge_list, Except.ok.injEq] at h
    subst h
    refine ⟨fun b0 s0 hm hs =>
        ⟨b0, s0, hm, hs, Or.inl rfl, Nat.le_refl _, by simp [entries_for, sev_list]⟩,
      fun hm _ => hm, fun hm hne => absurd rfl hne⟩
  | cons nb rest ih =>
    intro m mf h d hall
    obtain ⟨m2, hstep, hrest⟩ := merge_list_cons_ok _ _ _ _ _ _ h
    obtain ⟨p1, p2, p3⟩ := ih m2 mf hrest d
      (fun e he hd2 => hall e (List.mem_cons_of_mem _ he) hd2)
    by_cases hdom : nb.domain = d
    · have hsome := hall nb (List.mem_cons_self _ _) hdom
      obtain ⟨se, hse⟩ := Option.isSome_iff_exists.mp hsome
      have hbeq : (nb.domain == d) = true := by simp [hdom]
      have hent : entries_for d (nb :: rest) = nb :: entries_for d rest := by
        simp [entries_for, List.filter_cons, hbeq]
      have hsevl : sev_list (nb :: entries_for d rest) = se :: sev_list (entries_for d rest) := by
        simp [sev_list, List.filterMap_cons, hse]
      obtain ⟨hins, hmerge⟩ := merge_step_domain _ _ _ _ _ hstep
      rw [hdom] at hins hmerge
      refine ⟨fun b0 s0 hm hs => ?_, fun hm h0 => ?_, fun hm hne => ?_⟩
      · obtain ⟨b1, happ, hm2⟩ := hmerge b0 hm
        obtain ⟨pub, priv, _, _, _, _, _, _, ⟨ns, os, hns, hos, _, hminc⟩, _⟩ :=
          apply_mergeplan_ok_full b0 nb mergeplan ipc b1 happ
        have hnse : ns = se := by rw [hse] at hns; injection hns with h2; exact h2.symm
        have hose : os = s0 := by rw [hs] at hos; injection hos with h2; exact h2.symm
        obtain ⟨hb1sev, _⟩ := hminc hmp
        rw [hnse, hose] at hb1sev
        obtain ⟨b, s, hmf, hbs, hor, hle, hbound⟩ :=
          p1 b1 (if SEVERITY se < SEVERITY s0 then se else s0) hm2 hb1sev
        rw [hent, hsevl]
        refine ⟨b, s, hmf, hbs, ?_, ?_, ?_⟩
        · rcases hor with rfl | hmem
          · by_cases hlt : SEVERITY se < SEVERITY s0
            · rw [if_pos hlt]; exact Or.inr (List.mem_cons_self _ _)
            · rw [if_neg hlt]; exact Or.inl rfl
          · exact Or.inr (List.mem_cons_of_mem _ hmem)
        · refine Nat.le_trans hle ?_
          by_cases hlt : SEVERITY se < SEVERITY s0
          · rw [if_pos hlt]; exact Nat.le_of_lt hlt
          · rw [if_neg hlt]
        · intro t ht
          rcases List.mem_cons.mp ht with rfl | htmem
          · refine Nat.le_trans hle ?_
            by_cases hlt : SEVERITY t < SEVERITY s0
            · rw [if_pos hlt]
            · rw [if_neg hlt]; exact Nat.le_of_not_lt hlt
          · exact hbound t htmem
      · rw [hent] at h0
        exact List.noConfusion h0
      · have hm2 : m2 d = some (new_block_entry nb ipc) := hins hm
        have hsev2 : (new_block_entry nb ipc).severity = some se := by
          simp [new_block_entry, hse]
        obtain ⟨b, s, hmf, hbs, hor, hle, hbound⟩ :=
          p1 (new_block_entry nb ipc) se hm2 hsev2
        rw [hent, hsevl]
        refine ⟨b, s, hmf, hbs, ?_, ?_⟩
        · rcases hor with rfl | hmem
          · exact List.mem_cons_self _ _
          · exact List.mem_cons_of_mem _ hmem
        · intro t ht
          rcases List.mem_cons.mp ht with rfl | htmem
          · exact hle
          · exact hbound t htmem
    · have hframe : m2 d = m d :=
        merge_step_frame _ _ _ _ _ hstep d (fun hdd => hdom hdd.symm)
      have hbeq : (nb.domain == d) = false := by simp [hdom]
      have hent : entries_for d (nb :: rest) = entries_for d rest := by
        simp [entries_for, List.filter_cons, hbeq]
      rw [hent]
      exact ⟨fun b0 s0 hm hs => p1 b0 s0 (hframe.trans hm) hs,
        fun hm h0 => p2 (hframe.trans hm) h0,
        fun hm hne => p3 (hframe.trans hm) hne⟩

theorem merge_list_obf_max (ipc : Bool) (mergeplan : Option String)
    (hmp : mergeplan = some "max" ∨ mergeplan = none) :
    ∀ (l : List Block) (m mf : Merged),
      merge_list mergeplan ipc l m = Except.ok mf →
      ∀ d : String,
        ((∃ e ∈ entries_for d l, e.obfuscate = some true) ∨
         (∃ b0, m d = some b0 ∧ b0.obfuscate = some true)) →
        ∃ b, mf d = some b ∧ b.obfuscate = some true := by
  intro l
  induction l with
  | nil =>
    intro m mf h d hyp
    simp only [merge_list, Except.ok.injEq] at h
    subst h
    rcases hyp with ⟨e, he, _⟩ | ⟨b0, hm, hb⟩
    · simp [entries_for] at he
    · exact ⟨b0, hm, hb⟩
  | cons nb rest ih =>
    intro m mf h d hyp
    obtain ⟨m2, hstep, hrest⟩ := merge_list_cons_ok _ _ _ _ _ _ h
    by_cases hdom : nb.domain = d
    · have hbeq : (nb.domain == d) = true := by simp [hdom]
      have hent : entries_for d (nb :: rest) = nb :: entries_for d rest := by
        simp [entries_for, List.filter_cons, hbeq]
      obtain ⟨hins, hmerge⟩ := merge_step_domain _ _ _ _ _ hstep
      rw [hdom] at hins hmerge
      have step_true : (nb.obfuscate = some true ∨
          (∃ b0, m d = some b0 ∧ b0.obfuscate = some true)) →
          ∃ b1, m2 d = some b1 ∧ b1.obfuscate = some true := by
        intro hh
        cases hm : m d with
        | none =>
          rcases hh with hnb | ⟨b0, hm0, _⟩
          · refine ⟨new_block_entry nb ipc, hins hm, ?_⟩
            simp [new_block_entry, hnb]
          · rw [hm] at hm0; exact Option.noConfusion hm0
        | some b0 =>
          obtain ⟨b1, happ, hm2⟩ := hmerge b0 hm
          obtain ⟨pub, priv, _, _, _, _, _, _, ⟨ns, os, _, _, hmaxc, _⟩, _⟩ :=
            apply_mergeplan_ok_full b0 nb mergeplan ipc b1 happ
          obtain ⟨_, hobf⟩ := hmaxc hmp
          refine ⟨b1, hm2, ?_⟩
          rcases hh with hnb | ⟨b0x, hm0, hb0⟩
          · rw [hobf, if_pos (by simp [hnb])]
          · rw [hm] at hm0
            injection hm0 with hm0e
            subst hm0e
            rw [hobf]
            split
            · rfl
            · exact hb0
      rcases hyp with ⟨e, he, hobf⟩ | hright
      · rw [hent] at he
        rcases List.mem_cons.mp he with rfl | hmem
        · obtain ⟨b1, hm2, ht⟩ := step_true (Or.inl hobf)
          exact ih m2 mf hrest d (Or.inr ⟨b1, hm2, ht⟩)
        · exact ih m2 mf hrest d (Or.inl ⟨e, hmem, hobf⟩)
      · obtain ⟨b1, hm2, ht⟩ := step_true (Or.inr hright)
        exact ih m2 mf hrest d (Or.inr ⟨b1, hm2, ht⟩)
    · have hframe : m2 d = m d :=
        merge_step_frame _ _ _ _ _ hstep d (fun hdd => hdom hdd.symm)
      have hbeq : (nb.domain == d) = false := by simp [hdom]
      have hent : entries_for d (nb :: rest) = entries_for d rest := by
        simp [entries_for, List.filter_cons, hbeq]
      rw [hent] at hyp
      rcases hyp with hleft | ⟨b0, hm, hb⟩
      · exact ih m2 mf hrest d (Or.inl hleft)
      · exact ih m2 mf hrest d (Or.inr ⟨b0, hframe.trans hm, hb⟩)

theorem merge_list_obf_min (ipc : Bool) (mergeplan : Option String)
    (hmp : mergeplan = some "min") :
    ∀ (l : List Block) (m mf : Merged),
      merge_list mergeplan ipc l m = Except.ok mf →
      ∀ d : String,
        ((∃ e ∈ entries_for d l, e.obfuscate = some false) ∨
         (∃ b0, m d = some b0 ∧ b0.obfuscate = some false)) →
        ∃ b, mf d = some b ∧ b.obfuscate = some false := by
  intro l
  induction l with
  | nil =>
    intro m mf h d hyp
    simp only [merge_list, Except.ok.injEq] at h
    subst h
    rcases hyp with ⟨e, he, _⟩ | ⟨b0, hm, hb⟩
    · simp [entries_for] at he
    · exact ⟨b0, hm, hb⟩
  | cons nb rest ih =>
    intro m mf h d hyp
    obtain ⟨m2, hstep, hrest⟩ := merge_list_cons_ok _ _ _ _ _ _ h
    by_cases hdom : nb.domain = d
    · have hbeq : (nb.domain == d) = true := by simp [hdom]
      have hent : entries_for d (nb :: rest) = nb :: entries_for d rest := by
        simp [entries_for, List.filter_cons, hbeq]
      obtain ⟨hins, hmerge⟩ := merge_step_domain _ _ _ _ _ hstep
      rw [hdom] at hins hmerge
      have step_false : (nb.obfuscate = some false ∨
          (∃ b0, m d = some b0 ∧ b0.obfuscate = some false)) →
          ∃ b1, m2 d = some b1 ∧ b1.obfuscate = some false := by
        intro hh
        cases hm : m d with
        | none =>
          rcases hh with hnb | ⟨b0, hm0, _⟩
          · refine ⟨new_block_entry nb ipc, hins hm, ?_⟩
            simp [new_block_entry, hnb]
          · rw [hm] at hm0; exact Option.noConfusion hm0
        | some b0 =>
          obtain ⟨b1, happ, hm2⟩ := hmerge b0 hm
          obtain ⟨pub, priv, _, _, _, _, _, _, ⟨ns, os, _, _, _, hminc⟩, _⟩ :=
            apply_mergeplan_ok_full b0 nb mergeplan ipc b1 happ
          obtain ⟨_, hobf⟩ := hminc hmp
          refine ⟨b1, hm2, ?_⟩
          rcases hh with hnb | ⟨b0x, hm0, hb0⟩
          · rw [hobf, if_neg (by simp [hnb])]
          · rw [hm] at hm0
            injection hm0 with hm0e
            subst hm0e
            rw [hobf]
            split
            · exact hb0
            · rfl
      rcases hyp with ⟨e, he, hobf⟩ | hright
      · rw [hent] at he
        rcases List.mem_cons.mp he with rfl | hmem
        · obtain ⟨b1, hm2, ht⟩ := step_false (Or.inl hobf)
          exact ih m2 mf hrest d (Or.inr ⟨b1, hm2, ht⟩)
        · exact ih m2 mf hrest d (Or.inl ⟨e, hmem, hobf⟩)
      · obtain ⟨b1, hm2, ht⟩ := step_false (Or.inr hright)
        exact ih m2 mf hrest d (Or.inr ⟨b1, hm2, ht⟩)
    · have hframe : m2 d = m d :=
        merge_step_frame _ _ _ _ _ hstep d (fun hdd => hdom hdd.symm)
      have hbeq : (nb.domain == d) = false := by simp [hdom]
      have hent : entries_for d (nb :: rest) = entries_for d rest := by
        simp [entries_for, List.filter_cons, hbeq]
      rw [hent] at hyp
      rcases hyp with hleft | ⟨b0, hm, hb⟩
      · exact ih m2 mf hrest d (Or.inl hleft)
      · exact ih m2 mf hrest d (Or.inr ⟨b0, hframe.trans hm, hb⟩)

theorem merge_list_no_private (mergeplan : Option String) (ipc : Bool) :
    ∀ (l : List Block) (m mf : Merged),
      merge_list mergeplan ipc l m = Except.ok mf →
      (∀ d b, m d = some b → b.private_comment = none) →
      ∀ d b, mf d = some b → b.private_comment = none := by
  intro l
  induction l with
  | nil =>
    intro m mf h hinv d b hmf
    simp only [merge_list, Except.ok.injEq] at h
    subst h
    exact hinv d b hmf
  | cons nb rest ih =>
    intro m mf h hinv d b hmf
    obtain ⟨m2, hstep, hrest⟩ := merge_list_cons_ok _ _ _ _ _ _ h
    refine ih m2 mf hrest ?_ d b hmf
    intro d2 b2 hm2
    by_cases hdom : nb.domain = d2
    · obtain ⟨hins, hmerge⟩ := merge_step_domain _ _ _ _ _ hstep
      rw [hdom] at hins hmerge
      cases hm : m d2 with
      | none =>
        have := hins hm
        rw [this] at hm2
        injection hm2 with hm2e
        subst hm2e
        rfl
      | some old =>
        obtain ⟨b1, happ, hm2d⟩ := hmerge old hm
        rw [hm2d] at hm2
        injection hm2 with hm2e
        subst hm2e
        obtain ⟨pub, priv, _, hpriv, _, hbpriv, _, _, _, _⟩ :=
          apply_mergeplan_ok_full old nb mergeplan ipc b1 happ
        have hold : old.private_comment = none := hinv d2 old hm
        rw [hbpriv]
        cases ipc with
        | false =>
          simp only [Bool.false_eq_true, if_false] at hpriv
          injection hpriv with hprive
          rw [← hprive, hold]
        | true =>
          simp only [if_true] at hpriv
          rw [hold, merge_comment_key_old_absent] at hpriv
          injection hpriv with hprive
          exact hprive.symm
    · have hframe : m2 d2 = m d2 :=
        merge_step_frame _ _ _ _ _ hstep d2 (fun hdd => hdom hdd.symm)
      exact hinv d2 b2 (hframe.symm.trans hm2)

/-! Helper lemmas about the reconciliation loop. -/

/-- A single comparison flags a difference exactly when both keys are
present with unequal values. -/
theorem key_differs_iff {α : Type} [DecidableEq α] (oldv newv : Option α) :
    key_differs oldv newv = true ↔ BothPresentDiffer oldv newv := by
  cases oldv <;> cases newv <;> simp [key_differs, BothPresentDiffer]

/-- Flag `change_needed` is set exactly when some compared field differs. -/
theorem change_needed_check_iff (oldblock newblock : Block)
    (include_private_comments : Bool) :
    change_needed_check oldblock newblock include_private_comments = true ↔
      ComparedDiffer oldblock newblock include_private_comments := by
  unfold change_needed_check ComparedDiffer
  simp [key_differs_iff, or_assoc]

/-- Every operation emitted for one entry is about the domain of that entry. -/
theorem push_entry_ops_domain (knownblocks : String → Option Block)
    (dryrun ipc : Bool) (nb : Block) (o : Op)
    (ho : o ∈ (push_entry knownblocks dryrun ipc nb).1) : opDomain o = nb.domain := by
  unfold push_entry at ho
  split at ho
  · split at ho
    · simp at ho
      subst ho
      rfl
    · simp at ho
  · simp at ho
    subst ho
    rfl

/-- No operations are emitted for domains that are not in the list. -/
theorem push_loop_ops_for_absent (knownblocks : String → Option Block)
    (dryrun ipc : Bool) :
    ∀ (blocklist : List Block) (d : String),
      (∀ e ∈ blocklist, e.domain ≠ d) →
      ops_for d (push_loop knownblocks dryrun ipc blocklist).1 = [] := by
  intro blocklist
  induction blocklist with
  | nil => intro d _; rfl
  | cons nb rest ih =>
    intro d hall
    show ops_for d ((push_entry knownblocks dryrun ipc nb).1 ++
      (push_loop knownblocks dryrun ipc rest).1) = []
    rw [ops_for, List.filter_append]
    have h1 : (push_entry knownblocks dryrun ipc nb).1.filter
        (fun o => opDomain o == d) = [] := by
      rw [List.filter_eq_nil]
      intro o ho
      rw [push_entry_ops_domain knownblocks dryrun ipc nb o ho]
      simp [hall nb (List.mem_cons_self _ _)]
    rw [h1]
    have h2 := ih d (fun e he => hall e (List.mem_cons_of_mem _ he))
    rw [ops_for] at h2
    rw [h2]
    rfl

/-- With pairwise distinct domains, the operations about the domain of one
domain are exactly the operations that entry produced. -/
theorem push_loop_ops_for_mem (knownblocks : String → Option Block)
    (dryrun ipc : Bool) :
    ∀ (blocklist : List Block) (nb : Block),
      nb ∈ blocklist →
      (blocklist.map (fun e => e.domain)).Nodup →
      ops_for nb.domain (push_loop knownblocks dryrun ipc blocklist).1 =
        (push_entry knownblocks dryrun ipc nb).1 := by
  intro blocklist
  induction blocklist with
  | nil => intro nb h; exact absurd h (List.not_mem_nil _)
  | cons e rest ih =>
    intro nb hmem hnd
    rw [List.map_cons, List.nodup_cons] at hnd
    obtain ⟨hnotin, hndr⟩ := hnd
    show ops_for nb.domain ((push_entry knownblocks dryrun ipc e).1 ++
      (push_loop knownblocks dryrun ipc rest).1) = _
    rw [ops_for, List.filter_append]
    rcases List.mem_cons.mp hmem with rfl | hmemr
    · have h1 : (push_entry knownblocks dryrun ipc nb).1.filter
          (fun o => opDomain o == nb.domain) = (push_entry knownblocks dryrun ipc nb).1 := by
        rw [List.filter_eq_self]
        intro o ho
        simp [push_entry_ops_domain knownblocks dryrun ipc nb o ho]
      have h2 := push_loop_ops_for_absent knownblocks dryrun ipc rest nb.domain
        (fun e2 he2 hd2 => hnotin (hd2 ▸ List.mem_map_of_mem (fun x => x.domain) he2))
      rw [ops_for] at h2
      rw [h1, h2, List.append_nil]
    · have hne : e.domain ≠ nb.domain := by
        intro hdd
        exact hnotin (hdd ▸ List.mem_map_of_mem (fun x => x.domain) hmemr)
      have h1 : (push_entry knownblocks dryrun ipc e).1.filter
          (fun o => opDomain o == nb.domain) = [] := by
        rw [List.filter_eq_nil]
        intro o ho
        rw [push_entry_ops_domain knownblocks dryrun ipc e o ho]
        simp [hne]
      have h2 := ih nb hmemr hndr
      rw [ops_for] at h2
      rw [h1, h2]
      rfl

/-- What one entry produces, by case. -/
theorem push_entry_cases (knownblocks : String → Option Block)
    (dryrun ipc : Bool) (nb : Block) :
    (∀ old, knownblocks nb.domain = some old →
      (change_needed_check old nb ipc = false →
        push_entry knownblocks dryrun ipc nb = ([], [])) ∧
      (change_needed_check old nb ipc = true →
        push_entry knownblocks dryrun ipc nb =
          ([Op.update (dict_update old nb)],
           if dryrun then []
           else [Effect.write (Op.update (dict_update old nb)), Effect.sleep]))) ∧
    (knownblocks nb.domain = none →
      push_entry knownblocks dryrun ipc nb =
        ([Op.add (add_block_entry nb)],
         if dryrun then []
         else [Effect.write (Op.add (add_block_entry nb)), Effect.sleep])) := by
  constructor
  · intro old hold
    constructor
    · intro hch
      unfold push_entry
      rw [hold]
      simp [hch]
    · intro hch
      unfold push_entry
      rw [hold]
      simp [hch]
  · intro hnone
    unfold push_entry
    rw [hnone]

/-- The decided operations do not depend on dry-run; dry-run performs no
effects; outside dry-run every decided operation is written, followed by
the cool-down sleep. -/
theorem push_loop_dryrun (knownblocks : String → Option Block) (ipc : Bool) :
    ∀ blocklist : List Block,
      (push_loop knownblocks true ipc blocklist).1 =
        (push_loop knownblocks false ipc blocklist).1 ∧
      (push_loop knownblocks true ipc blocklist).2 = [] ∧
      (push_loop knownblocks false ipc blocklist).2 =
        (push_loop knownblocks false ipc blocklist).1.flatMap
          (fun op => [Effect.write op, Effect.sleep]) := by
  intro blocklist
  induction blocklist with
  | nil => exact ⟨rfl, rfl, rfl⟩
  | cons nb rest ih =>
    obtain ⟨ih1, ih2, ih3⟩ := ih
    have hops : (push_entry knownblocks true ipc nb).1 =
        (push_entry knownblocks false ipc nb).1 := by
      unfold push_entry
      split
      · split <;> rfl
      · rfl
    have heff1 : (push_entry knownblocks true ipc nb).2 = [] := by
      unfold push_entry
      split
      · split <;> rfl
      · rfl
    have heff2 : (push_entry knownblocks false ipc nb).2 =
        (push_entry knownblocks false ipc nb).1.flatMap
          (fun op => [Effect.write op, Effect.sleep]) := by
      unfold push_entry
      split
      · split <;> rfl
      · rfl
    refine ⟨?_, ?_, ?_⟩
    · show (push_entry knownblocks true ipc nb).1 ++ (push_loop knownblocks true ipc rest).1 = _
      rw [hops, ih1]
      rfl
    · show (push_entry knownblocks true ipc nb).2 ++ (push_loop knownblocks true ipc rest).2 = _
      rw [heff1, ih2]
      rfl
    · show (push_entry knownblocks false ipc nb).2 ++ (push_loop knownblocks false ipc rest).2 =
        ((push_entry knownblocks false ipc nb).1 ++ (push_loop knownblocks false ipc rest).1).flatMap
          (fun op => [Effect.write op, Effect.sleep])
      rw [heff2, ih3, List.flatMap_append]

/-! Helper lemmas about the fetch loop. -/

/-- A non-200 response at the head of the page stream raises, carrying
the status and body. -/
theorem fetch_loop_head_error (response : PageResponse)
    (rest : List PageResponse) (acc : List Block)
    (h : response.status_code ≠ 200) :
    fetch_loop (response :: rest) acc =
      Except.error (FetchError.remoteFetchError response.status_code response.content) := by
  unfold fetch_loop
  rw [if_pos h]

/-- A 200 response whose Link header does not split into exactly two
parts ends the pagination, returning everything accumulated so far. -/
theorem fetch_loop_head_done (response : PageResponse)
    (rest : List PageResponse) (acc : List Block)
    (h200 : response.status_code = 200)
    (hsplit : (py_split response.link ", ").length ≠ 2) :
    fetch_loop (response :: rest) acc = Except.ok (acc ++ response.content) := by
  unfold fetch_loop
  rw [if_neg (by simp [h200])]
  rcases hs : py_split response.link ", " with _ | ⟨a, _ | ⟨b, _ | _⟩⟩ <;>
    simp [hs] at hsplit ⊢

/-! The claims. -/

/-- C1: for every domain appearing in the source lists all of whose
entries carry an explicit severity, the merged severity under the
"max" plan is the maximum of those severities (a severity of the
entries for the domain that bounds all of them from above in the
noop < silence < suspend order), and under "min" the minimum. -/
theorem merge_severity_extremal (bls : List (String × List Block))
    (mergeplan : Option String) (ipc : Bool) (d : String) (merged : Merged)
    (hmp : mergeplan = some "max" ∨ mergeplan = some "min")
    (hok : merge_blocklists bls mergeplan ipc = Except.ok merged)
    (hne : entries_for d (flat_blocklists bls) ≠ [])
    (hsev : ∀ e ∈ entries_for d (flat_blocklists bls), (e.severity).isSome = true) :
    ∃ b s, merged d = some b ∧ b.severity = some s ∧
      s ∈ sev_list (entries_for d (flat_blocklists bls)) ∧
      (mergeplan = some "max" →
        ∀ t ∈ sev_list (entries_for d (flat_blocklists bls)), SEVERITY t ≤ SEVERITY s) ∧
      (mergeplan = some "min" →
        ∀ t ∈ sev_list (entries_for d (flat_blocklists bls)), SEVERITY s ≤ SEVERITY t) := by
  rw [merge_blocklists_eq_flat] at hok
  have hall : ∀ e ∈ flat_blocklists bls, e.domain = d → (e.severity).isSome = true := by
    intro e he hd2
    refine hsev e ?_
    rw [entries_for, List.mem_filter]
    exact ⟨he, by simp [hd2]⟩
  rcases hmp with hmax | hmin
  · obtain ⟨_, _, p3⟩ := merge_list_sev_max ipc mergeplan (Or.inl hmax)
      (flat_blocklists bls) (fun _ => none) merged hok d hall
    obtain ⟨b, s, hmf, hbs, hmem, hbound⟩ := p3 rfl hne
    exact ⟨b, s, hmf, hbs, hmem, fun _ => hbound,
      fun hmin2 => absurd (hmax.symm.trans hmin2) (by decide)⟩
  · obtain ⟨_, _, p3⟩ := merge_list_sev_min ipc mergeplan hmin
      (flat_blocklists bls) (fun _ => none) merged hok d hall
    obtain ⟨b, s, hmf, hbs, hmem, hbound⟩ := p3 rfl hne
    exact ⟨b, s, hmf, hbs, hmem,
      fun hmax2 => absurd (hmin.symm.trans hmax2) (by decide),
      fun _ => hbound⟩

/-- C1 witness: merging a silence and a suspend entry for `bad.example`
under "max" yields a severity that is among the source severities and
bounds them above. -/
theorem merge_severity_extremal_witness :
    ∃ merged, merge_blocklists demoBls (some "max") false = Except.ok merged ∧
      ∃ b s, merged "bad.example" = some b ∧ b.severity = some s ∧
        s ∈ sev_list (entries_for "bad.example" (flat_blocklists demoBls)) ∧
        (some "max" = some "max" →
          ∀ t ∈ sev_list (entries_for "bad.example" (flat_blocklists demoBls)),
            SEVERITY t ≤ SEVERITY s) ∧
        (some "max" = some "min" →
          ∀ t ∈ sev_list (entries_for "bad.example" (flat_blocklists demoBls)),
            SEVERITY s ≤ SEVERITY t) :=
  ⟨_, rfl, merge_severity_extremal demoBls (some "max") false "bad.example" _
    (Or.inl rfl) rfl (by decide) (by decide)⟩

/-- C4: whenever `apply_mergeplan` succeeds, the resulting reject flags
are the explicit values of the incoming entry when present and otherwise the
severity defaults of the post-resolution severity, regardless of what
the existing entry carried. -/
theorem mergeplan_reject_flags (oldblock newblock : Block)
    (mergeplan : Option String) (ipc : Bool) (b : Block)
    (h : apply_mergeplan oldblock newblock mergeplan ipc = Except.ok b) :
    ∃ sev, b.severity = some sev ∧
      b.reject_media = some (newblock.reject_media.getD (REJECT_MEDIA_DEFAULT sev)) ∧
      b.reject_reports = some (newblock.reject_reports.getD (REJECT_REPORTS_DEFAULT sev)) := by
  obtain ⟨_, _, _, _, _, _, _, _, _, hrej⟩ :=
    apply_mergeplan_ok_full oldblock newblock mergeplan ipc b h
  exact hrej

/-- C4 witness: merging an entry with explicit reject_media = false into
a higher-severity incoming entry that omits the flag recomputes the flag
from the resulting severity, overwriting the explicit old value. -/
theorem mergeplan_reject_flags_witness :
    (∃ sev, c4res.severity = some sev ∧
      c4res.reject_media = some (c4new.reject_media.getD (REJECT_MEDIA_DEFAULT sev)) ∧
      c4res.reject_reports = some (c4new.reject_reports.getD (REJECT_REPORTS_DEFAULT sev))) ∧
    c4old.reject_media = some false ∧ c4new.reject_media = none ∧
    c4res.reject_media = some true :=
  ⟨mergeplan_reject_flags c4old c4new (some "max") false c4res rfl, rfl, rfl, rfl⟩

/-- C5 counterexample: the mergeplan value `None` lies outside
the max/min pair, yet `apply_mergeplan` does not fail: the check `mergeplan
in [max, None]` silently applies the max plan (the severity is raised to
suspend). -/
theorem mergeplan_none_fallback_cex :
    apply_mergeplan c5old c5new none false = Except.ok c5res ∧
    c5res.severity = some Severity.suspend := by
  constructor <;> rfl

/-- C5 amended: every *string* mergeplan other than "max" and "min" is
rejected: `apply_mergeplan` never returns a block, and raises
`NotImplementedError` whenever the preceding comment merge itself
raises nothing; the non-string value `None`, however, silently falls
back to the max plan. -/
theorem mergeplan_invalid_rejected (s : String) (oldblock newblock : Block)
    (ipc : Bool) (hs : s ≠ "max" ∧ s ≠ "min") :
    (∀ b, apply_mergeplan oldblock newblock (some s) ipc ≠ Except.ok b) ∧
    ((∃ pub, merge_comment_key oldblock.public_comment newblock.public_comment =
        Except.ok pub) →
     (ipc = true → ∃ priv,
        merge_comment_key oldblock.private_comment newblock.private_comment =
          Except.ok priv) →
     apply_mergeplan oldblock newblock (some s) ipc =
       Except.error PyErr.notImplemented) := by
  have hc1 : ¬(some s = some "max" ∨ (some s : Option String) = none) := by
    rintro (hc | hc)
    · injection hc with hc2; exact hs.1 hc2
    · exact Option.noConfusion hc
  have hc2 : ¬((some s : Option String) = some "min") := by
    intro hc; injection hc with hc2; exact hs.2 hc2
  constructor
  · intro b hb
    unfold apply_mergeplan at hb
    split at hb
    · exact Except.noConfusion hb
    split at hb
    · exact Except.noConfusion hb
    rw [if_neg hc1, if_neg hc2] at hb
    exact Except.noConfusion hb
  · rintro ⟨pub, hpub⟩ hprivf
    unfold apply_mergeplan
    rw [hpub]
    cases ipc with
    | false =>
      rw [if_neg (show ¬(false = true) by decide)]
      dsimp only
      rw [if_neg hc1, if_neg hc2]
    | true =>
      obtain ⟨priv, hpriv⟩ := hprivf rfl
      rw [if_pos (show true = true from rfl), hpriv]
      dsimp only
      rw [if_neg hc1, if_neg hc2]

/-- C5 amended witness: the string mergeplan "average" is rejected with
`NotImplementedError`. -/
theorem mergeplan_invalid_rejected_witness :
    apply_mergeplan c5old c5new (some "average") false =
      Except.error PyErr.notImplemented :=
  (mergeplan_invalid_rejected "average" c5old c5new false
      ⟨by decide, by decide⟩).2 ⟨_, rfl⟩ (fun h => Bool.noConfusion h)

/-- C6: under the "max" plan, one source entry with obfuscate = true
forces the obfuscate of the merged entry to true regardless of the other
entries; under "min", one entry with obfuscate = false forces it to
false. -/
theorem obfuscate_sticky (bls : List (String × List Block)) (ipc : Bool) (d : String) :
    (∀ merged, merge_blocklists bls (some "max") ipc = Except.ok merged →
      (∃ e ∈ entries_for d (flat_blocklists bls), e.obfuscate = some true) →
      ∃ b, merged d = some b ∧ b.obfuscate = some true) ∧
    (∀ merged, merge_blocklists bls (some "min") ipc = Except.ok merged →
      (∃ e ∈ entries_for d (flat_blocklists bls), e.obfuscate = some false) →
      ∃ b, merged d = some b ∧ b.obfuscate = some false) := by
  constructor
  · intro merged hok hex
    rw [merge_blocklists_eq_flat] at hok
    exact merge_list_obf_max ipc (some "max") (Or.inl rfl)
      (flat_blocklists bls) (fun _ => none) merged hok d (Or.inl hex)
  · intro merged hok hex
    rw [merge_blocklists_eq_flat] at hok
    exact merge_list_obf_min ipc (some "min") rfl
      (flat_blocklists bls) (fun _ => none) merged hok d (Or.inl hex)

/-- C6 witness: an obfuscate = true entry followed by an obfuscate =
false entry for the same domain still merges to obfuscate = true under
the "max" plan. -/
theorem obfuscate_sticky_witness :
    ∃ merged, merge_blocklists demoObf (some "max") false = Except.ok merged ∧
      ∃ b, merged "f.example" = some b ∧ b.obfuscate = some true :=
  ⟨_, rfl, (obfuscate_sticky demoObf false "f.example").1 _ rfl (by decide)⟩

/-- C7 counterexample: both entries carry a public_comment, the values
differ, and the incoming value "spam" is neither empty nor None, yet the
merge does not produce the newline concatenation: the existing value is
the Python value `None`, so the newline join raises `TypeError`. -/
theorem comment_merge_none_typeerror_cex :
    c7old.public_comment = some none ∧
    c7new.public_comment = some (some "spam") ∧
    apply_mergeplan c7old c7new (some "max") false = Except.error PyErr.typeError := by
  refine ⟨rfl, rfl, ?_⟩
  rfl

/-- C7 amended: in a successful conflict resolution, for each comment
field (public, and private when enabled): if both entries have the field
as *strings*, the values differ, and the incoming value is non-empty,
the result is existing + newline + incoming; an absent, empty, or None
incoming comment leaves the existing value unchanged.  (When the
existing value is Python None and the incoming differs and is neither
empty nor None, `apply_mergeplan` instead raises TypeError.) -/
theorem comment_merge_concat (oldblock newblock : Block)
    (mergeplan : Option String) (ipc : Bool) (b : Block)
    (h : apply_mergeplan oldblock newblock mergeplan ipc = Except.ok b) :
    (∀ os2 ns2, oldblock.public_comment = some (some os2) →
      newblock.public_comment = some (some ns2) → os2 ≠ ns2 → ns2 ≠ "" →
      b.public_comment = some (some (os2 ++ "\n" ++ ns2))) ∧
    ((newblock.public_comment = none ∨ newblock.public_comment = some none ∨
      newblock.public_comment = some (some "")) →
      b.public_comment = oldblock.public_comment) ∧
    (ipc = true →
      (∀ os2 ns2, oldblock.private_comment = some (some os2) →
        newblock.private_comment = some (some ns2) → os2 ≠ ns2 → ns2 ≠ "" →
        b.private_comment = some (some (os2 ++ "\n" ++ ns2))) ∧
      ((newblock.private_comment = none ∨ newblock.private_comment = some none ∨
        newblock.private_comment = some (some "")) →
        b.private_comment = oldblock.private_comment)) := by
  obtain ⟨pub, priv, hpub, hpriv, hbpub, hbpriv, _, _, _, _⟩ :=
    apply_mergeplan_ok_full oldblock newblock mergeplan ipc b h
  refine ⟨?_, ?_, ?_⟩
  · intro os2 ns2 ho hn hne hns
    rw [ho, hn, merge_comment_key_concat os2 ns2 hne hns] at hpub
    injection hpub with hpube
    rw [hbpub, ← hpube]
  · intro hcase
    rw [merge_comment_key_noop oldblock.public_comment newblock.public_comment hcase] at hpub
    injection hpub with hpube
    rw [hbpub, ← hpube]
  · intro hipc
    subst hipc
    rw [if_pos (show true = true from rfl)] at hpriv
    constructor
    · intro os2 ns2 ho hn hne hns
      rw [ho, hn, merge_comment_key_concat os2 ns2 hne hns] at hpriv
      injection hpriv with hprive
      rw [hbpriv, ← hprive]
    · intro hcase
      rw [merge_comment_key_noop oldblock.private_comment newblock.private_comment hcase] at hpriv
      injection hpriv with hprive
      rw [hbpriv, ← hprive]

/-- C7 amended witness: two differing string comments concatenate with a
newline. -/
theorem comment_merge_concat_witness :
    c7ares.public_comment = some (some ("first" ++ "\n" ++ "second")) :=
  (comment_merge_concat c7aold c7anew (some "max") false c7ares rfl).1
    "first" "second" rfl rfl (by decide) (by decide)

/-- C10: the insert path of `merge_blocklists` never sets
private_comment (line 127 is an annotated statement, not an assignment),
and since the conflict-resolution path only rewrites a private_comment
already present on the accumulated entry, no merged entry ever carries
one. -/
theorem merged_no_private_comment :
    (∀ nb ipc2, (new_block_entry nb ipc2).private_comment = none) ∧
    (∀ bls mergeplan ipc merged d b,
      merge_blocklists bls mergeplan ipc = Except.ok merged →
      merged d = some b → b.private_comment = none) := by
  refine ⟨fun _ _ => rfl, fun bls mergeplan ipc merged d b hok hd => ?_⟩
  rw [merge_blocklists_eq_flat] at hok
  exact merge_list_no_private mergeplan ipc (flat_blocklists bls) (fun _ => none)
    merged hok (fun d2 b2 h0 => Option.noConfusion h0) d b hd

/-- C10 witness: a source entry carrying a private comment is inserted
without one, with private comments enabled. -/
theorem merged_no_private_comment_witness :
    (new_block_entry blkPriv true).private_comment = none ∧
    ∃ merged b, merge_blocklists demoPrivBls (some "max") true = Except.ok merged ∧
      merged "g.example" = some b ∧ b.private_comment = none :=
  ⟨merged_no_private_comment.1 blkPriv true,
   ⟨_, _, rfl, rfl, merged_no_private_comment.2 demoPrivBls (some "max") true _
      "g.example" _ rfl rfl⟩⟩

/-- C2: for a merged entry whose domain the destination already blocks,
no operation is emitted when no compared field differs; when one does,
exactly one Update is emitted whose payload is the existing row
overridden by the present fields of the merged entry, keeping the remote
id; and the `change_needed` flag of the code coincides with field-level
difference (both present with unequal values). -/
theorem push_update_minimal (serverblocks blocklist : List Block)
    (dryrun ipc : Bool) (nb old : Block)
    (hnd : (blocklist.map (fun e => e.domain)).Nodup)
    (hmem : nb ∈ blocklist)
    (hold : knownblocks_of serverblocks nb.domain = some old)
    (hid : nb.id = none) :
    (¬ComparedDiffer old nb ipc →
      ops_for nb.domain (push_blocklist serverblocks blocklist dryrun ipc).1 = []) ∧
    (ComparedDiffer old nb ipc →
      ops_for nb.domain (push_blocklist serverblocks blocklist dryrun ipc).1 =
        [Op.update (dict_update old nb)] ∧
      (dict_update old nb).id = old.id ∧
      (dict_update old nb).severity = (nb.severity).or old.severity ∧
      (dict_update old nb).public_comment = (nb.public_comment).or old.public_comment ∧
      (dict_update old nb).private_comment = (nb.private_comment).or old.private_comment ∧
      (dict_update old nb).reject_media = (nb.reject_media).or old.reject_media ∧
      (dict_update old nb).reject_reports = (nb.reject_reports).or old.reject_reports ∧
      (dict_update old nb).obfuscate = (nb.obfuscate).or old.obfuscate) ∧
    (change_needed_check old nb ipc = true ↔ ComparedDiffer old nb ipc) := by
  have hops := push_loop_ops_for_mem (knownblocks_of serverblocks) dryrun ipc
    blocklist nb hmem hnd
  obtain ⟨hknown, _⟩ := push_entry_cases (knownblocks_of serverblocks) dryrun ipc nb
  obtain ⟨hno, hyes⟩ := hknown old hold
  refine ⟨fun hnodiff => ?_, fun hdiff => ?_, change_needed_check_iff old nb ipc⟩
  · have hch : change_needed_check old nb ipc = false := by
      cases hc : change_needed_check old nb ipc
      · rfl
      · exact absurd ((change_needed_check_iff old nb ipc).mp hc) hnodiff
    show ops_for nb.domain (push_loop (knownblocks_of serverblocks) dryrun ipc blocklist).1 = []
    rw [hops, hno hch]
  · have hch : change_needed_check old nb ipc = true :=
      (change_needed_check_iff old nb ipc).mpr hdiff
    refine ⟨?_, ?_, rfl, rfl, rfl, rfl, rfl, rfl⟩
    · show ops_for nb.domain (push_loop (knownblocks_of serverblocks) dryrun ipc blocklist).1 = _
      rw [hops, hyes hch]
    · show (nb.id).or old.id = old.id
      rw [hid]
      rfl

/-- C2 witness: a destination row and a merged entry differing only in
severity produce exactly one Update carrying the remote id 42. -/
theorem push_update_minimal_witness :
    (¬ComparedDiffer srvOld mrgNew false →
      ops_for mrgNew.domain (push_blocklist [srvOld] [mrgNew] false false).1 = []) ∧
    (ComparedDiffer srvOld mrgNew false →
      ops_for mrgNew.domain (push_blocklist [srvOld] [mrgNew] false false).1 =
        [Op.update (dict_update srvOld mrgNew)] ∧
      (dict_update srvOld mrgNew).id = srvOld.id ∧
      (dict_update srvOld mrgNew).severity = (mrgNew.severity).or srvOld.severity ∧
      (dict_update srvOld mrgNew).public_comment = (mrgNew.public_comment).or srvOld.public_comment ∧
      (dict_update srvOld mrgNew).private_comment = (mrgNew.private_comment).or srvOld.private_comment ∧
      (dict_update srvOld mrgNew).reject_media = (mrgNew.reject_media).or srvOld.reject_media ∧
      (dict_update srvOld mrgNew).reject_reports = (mrgNew.reject_reports).or srvOld.reject_reports ∧
      (dict_update srvOld mrgNew).obfuscate = (mrgNew.obfuscate).or srvOld.obfuscate) ∧
    (change_needed_check srvOld mrgNew false = true ↔ ComparedDiffer srvOld mrgNew false) :=
  push_update_minimal [srvOld] [mrgNew] false false mrgNew srvOld
    (by decide) (by decide) rfl rfl

/-- C3: for a merged entry whose domain the destination does not know,
exactly one Add (never an Update) is emitted, whose payload fills absent
fields with the own defaults of the reconciler (severity silence, empty
comments, reject flags false, obfuscate false) — a default set distinct
from and less lenient than the insert defaults of the merge engine (obfuscate
true, severity-derived reject flags). -/
theorem push_add_defaults (serverblocks blocklist : List Block)
    (dryrun ipc : Bool) (nb : Block)
    (hnd : (blocklist.map (fun e => e.domain)).Nodup)
    (hmem : nb ∈ blocklist)
    (hnone : knownblocks_of serverblocks nb.domain = none) :
    ops_for nb.domain (push_blocklist serverblocks blocklist dryrun ipc).1 =
      [Op.add (add_block_entry nb)] ∧
    (add_block_entry nb).severity = some ((nb.severity).getD Severity.silence) ∧
    (add_block_entry nb).public_comment = some ((nb.public_comment).getD (some "")) ∧
    (add_block_entry nb).private_comment = some ((nb.private_comment).getD (some "")) ∧
    (add_block_entry nb).reject_media = some ((nb.reject_media).getD false) ∧
    (add_block_entry nb).reject_reports = some ((nb.reject_reports).getD false) ∧
    (add_block_entry nb).obfuscate = some ((nb.obfuscate).getD false) ∧
    (add_block_entry mrgFresh).obfuscate = some false ∧
    (new_block_entry mrgFresh ipc).obfuscate = some true ∧
    (add_block_entry mrgFresh).reject_media = some false ∧
    (new_block_entry mrgFresh ipc).reject_media = some true := by
  have hops := push_loop_ops_for_mem (knownblocks_of serverblocks) dryrun ipc
    blocklist nb hmem hnd
  obtain ⟨_, hunknown⟩ := push_entry_cases (knownblocks_of serverblocks) dryrun ipc nb
  refine ⟨?_, rfl, rfl, rfl, rfl, rfl, rfl, rfl, rfl, rfl, rfl⟩
  show ops_for nb.domain (push_loop (knownblocks_of serverblocks) dryrun ipc blocklist).1 = _
  rw [hops, hunknown hnone]

/-- C3 witness: a fresh domain with all optional fields absent is added
with the reconciler defaults. -/
theorem push_add_defaults_witness :
    ops_for mrgFresh.domain (push_blocklist [] [mrgFresh] false false).1 =
      [Op.add (add_block_entry mrgFresh)] ∧
    (add_block_entry mrgFresh).severity = some ((mrgFresh.severity).getD Severity.silence) ∧
    (add_block_entry mrgFresh).public_comment = some ((mrgFresh.public_comment).getD (some "")) ∧
    (add_block_entry mrgFresh).private_comment = some ((mrgFresh.private_comment).getD (some "")) ∧
    (add_block_entry mrgFresh).reject_media = some ((mrgFresh.reject_media).getD false) ∧
    (add_block_entry mrgFresh).reject_reports = some ((mrgFresh.reject_reports).getD false) ∧
    (add_block_entry mrgFresh).obfuscate = some ((mrgFresh.obfuscate).getD false) ∧
    (add_block_entry mrgFresh).obfuscate = some false ∧
    (new_block_entry mrgFresh false).obfuscate = some true ∧
    (add_block_entry mrgFresh).reject_media = some false ∧
    (new_block_entry mrgFresh false).reject_media = some true :=
  push_add_defaults [] [mrgFresh] false false mrgFresh (by decide) (by decide) rfl

/-- C9: dry-run computes exactly the Add/Update decisions a non-dry-run
invocation would, performs no write against the destination, and skips
the per-write cool-down sleep; outside dry-run every decided operation
is written followed by the cool-down sleep. -/
theorem push_dryrun_no_effects (serverblocks blocklist : List Block) (ipc : Bool) :
    (push_blocklist serverblocks blocklist true ipc).1 =
      (push_blocklist serverblocks blocklist false ipc).1 ∧
    (push_blocklist serverblocks blocklist true ipc).2 = [] ∧
    (push_blocklist serverblocks blocklist false ipc).2 =
      (push_blocklist serverblocks blocklist false ipc).1.flatMap
        (fun op => [Effect.write op, Effect.sleep]) :=
  push_loop_dryrun (knownblocks_of serverblocks) ipc blocklist

/-- C8: the fetch loop fails with an error carrying the HTTP status and
body on any non-200 page response, and a successful page whose Link
header does not split on comma-blank into exactly two (next, previous) parts
ends the pagination, returning the rows accumulated so far. -/
theorem fetch_error_and_cursor :
    (∀ (response : PageResponse) (rest : List PageResponse) (acc : List Block),
      response.status_code ≠ 200 →
      fetch_loop (response :: rest) acc =
        Except.error (FetchError.remoteFetchError response.status_code response.content)) ∧
    (∀ (response : PageResponse) (rest : List PageResponse) (acc : List Block),
      response.status_code = 200 →
      (py_split response.link ", ").length ≠ 2 →
      fetch_loop (response :: rest) acc = Except.ok (acc ++ response.content)) ∧
    (∀ pages, fetch_instance_blocklist pages = fetch_loop pages []) :=
  ⟨fetch_loop_head_error, fetch_loop_head_done, fun _ => rfl⟩

/-- C8 witness: a 403 page fails with the status; a 200 page with a
one-part Link header returns its rows. -/
theorem fetch_error_and_cursor_witness :
    fetch_instance_blocklist [pageBad] =
      Except.error (FetchError.remoteFetchError 403 []) ∧
    fetch_instance_blocklist [pageLast] = Except.ok ([] ++ [blkSilence]) :=
  ⟨(fetch_error_and_cursor.2.2 [pageBad]).trans
      (fetch_error_and_cursor.1 pageBad [] [] (by decide)),
   (fetch_error_and_cursor.2.2 [pageLast]).trans
      (fetch_error_and_cursor.2.1 pageLast [] [] rfl (by decide))⟩
